import Mathlib

/-!
Verification of the log-structured block manager (LBM) core of this
repository, together with the CountDownLatch utility.

The LBM implementation file is not present under src/ (only the class
declarations and design documentation in
src/src/kudu/fs/log_block_manager.h are), so the LBM operations below are
modelled from the specification, faithful to its words; each such
definition carries a doc comment starting with the marker
`Modelled from the spec:`. The CountDownLatch definitions are translated
directly from src/src/kudu/util/countdown_latch.h, which contains the
full inline implementation.
-/

namespace KuduFs

/-- Status codes surfaced to callers, the subset of kudu::Status kinds the
spec enumerates in section 7 that the claims below mention. -/
inductive Status
  | ok
  | alreadyPresent
  | notFound
  | corruption
  | ioError
deriving DecidableEq, Repr

/-- A block identifier: an opaque 64-bit unsigned value (spec section 3,
BlockId; src/src/kudu/fs/log_block_manager.h uses BlockId throughout). -/
abbrev BlockId := Nat

/-- Modelled from the spec: a metadata record (BlockRecordPB in the
header, whose definition is not under src/). Spec section 3, record
types: CREATE carries block_id, offset, length, timestamp; DELETE
carries block_id, timestamp. -/
inductive BlockRecordPB
  | create (block_id offset length timestamp : Nat)
  | delete (block_id timestamp : Nat)
deriving DecidableEq, Repr

/- ------------------------------------------------------------------
CountDownLatch, translated from src/src/kudu/util/countdown_latch.h.
------------------------------------------------------------------ -/

/-- The unsigned 64-bit value that a C++ `int` argument takes after the
implicit conversion performed by the comparison `amount >= count_` in
CountDownLatch::CountDown (countdown_latch.h line 47), where `count_` is
`uint64_t`. -/
def toU64 (z : Int) : Nat := (z % (2 : Int) ^ 64).toNat

/-- State of kudu::CountDownLatch: the `count_` field (`uint64_t`,
countdown_latch.h line 117). The mutex and condition variable in the
class only serialize access and wake waiters; they do not change the
count arithmetic modelled here. -/
structure CountDownLatch where
  count : Nat
deriving DecidableEq, Repr

/-- CountDownLatch::CountDown(int amount), countdown_latch.h lines 40-57:
if the count is already zero the call has no effect; otherwise if
`amount >= count_` the count becomes zero, else it is decremented by
`amount`. -/
def CountDownLatch.CountDown (l : CountDownLatch) (amount : Int) : CountDownLatch :=
  if l.count = 0 then l
  else if l.count ≤ toU64 amount then { count := 0 }
  else { count := l.count - toU64 amount }

/-- CountDownLatch::Reset(uint64_t count), countdown_latch.h lines 98-105:
overwrites the count with the given value. -/
def CountDownLatch.Reset (_l : CountDownLatch) (count : Nat) : CountDownLatch :=
  { count := count }

/- ------------------------------------------------------------------
The in-memory block index (claims C3 and C4).
------------------------------------------------------------------ -/

/-- A live block index entry (internal::LogBlock, declared in the header;
spec section 3: container reference, block id, offset, length). -/
structure LogBlock where
  container : String
  block_id : BlockId
  offset : Nat
  length : Nat
deriving DecidableEq, Repr

/-- Modelled from the spec: the index state of the LogBlockManager (the
implementation file is not under src/). `blocks_by_block_id` is the map
from BlockId to LogBlock (header line 442), `open_block_ids` the set of
ids of blocks still open for writing (header line 449), and
`delete_records` the stream of DELETE metadata records appended by
deletions (spec section 4.F, deletion transaction step 2). -/
structure LogBlockManager where
  blocks_by_block_id : List (BlockId × LogBlock)
  open_block_ids : List BlockId
  delete_records : List BlockRecordPB
deriving DecidableEq, Repr

/-- Lookup of a block id in the index map. -/
def lookupBlock (bs : List (BlockId × LogBlock)) (id : BlockId) : Option LogBlock :=
  (bs.find? (fun p => p.1 == id)).map Prod.snd

/-- Removal of a key from the index map. -/
def eraseBlock (bs : List (BlockId × LogBlock)) (id : BlockId) : List (BlockId × LogBlock) :=
  bs.filter (fun p => p.1 != id)

/-- Whether the index map holds the given id. -/
def LogBlockManager.containsBlock (m : LogBlockManager) (id : BlockId) : Bool :=
  (lookupBlock m.blocks_by_block_id id).isSome

/-- Whether the id is taken, i.e. in `blocks_by_block_id` or in
`open_block_ids` (spec section 4.D: both structures are consulted). -/
def LogBlockManager.idInUse (m : LogBlockManager) (id : BlockId) : Bool :=
  m.containsBlock id || m.open_block_ids.contains id

/-- Modelled from the spec: LogBlockManager::TryUseBlockId (declared at
header lines 300-304, implementation not under src/). Spec section 4.D,
claim for write: reserve an unused id by adding it to open_ids; reject a
collision with either structure. Returns true iff the id was free. -/
def LogBlockManager.TryUseBlockId (m : LogBlockManager) (id : BlockId) :
    Bool × LogBlockManager :=
  if m.idInUse id then (false, m)
  else (true, { m with open_block_ids := id :: m.open_block_ids })

/-- Modelled from the spec: LogBlockManager::AddLogBlock (declared at
header lines 306-314, implementation not under src/). Spec section 4.D,
insert (publish CREATE): reject with AlreadyPresent if the id is already
in `blocks` or `open_ids`; otherwise insert atomically. -/
def LogBlockManager.AddLogBlock (m : LogBlockManager) (container : String)
    (id : BlockId) (offset length : Nat) : Status × LogBlockManager :=
  if m.idInUse id then (.alreadyPresent, m)
  else (.ok, { m with blocks_by_block_id :=
    (id, ⟨container, id, offset, length⟩) :: m.blocks_by_block_id })

/-- Modelled from the spec: LogBlockManager::RemoveLogBlockUnlocked
(declared at header lines 336-342, implementation not under src/). Spec
section 4.D, remove (publish DELETE): the id must pre-exist in `blocks`;
removing a non-existent id returns NotFound. On success the removed
LogBlock is produced. -/
def LogBlockManager.RemoveLogBlockUnlocked (m : LogBlockManager) (id : BlockId) :
    Status × Option LogBlock × LogBlockManager :=
  match lookupBlock m.blocks_by_block_id id with
  | none => (.notFound, none, m)
  | some lb =>
    (.ok, some lb, { m with blocks_by_block_id := eraseBlock m.blocks_by_block_id id })

/-- Modelled from the spec: LogBlockManager::RemoveLogBlocks (declared at
header lines 322-334, implementation not under src/). Removes each given
block from the in-memory structures and appends a DELETE metadata record
for each block actually removed; ids not present yield NotFound, no
record is appended for them, and the result status is the first failure
seen. Returns (status, removed blocks, ids found already deleted, new
state). -/
def LogBlockManager.RemoveLogBlocks (m : LogBlockManager) (ids : List BlockId)
    (ts : Nat) : Status × List (BlockId × LogBlock) × List BlockId × LogBlockManager :=
  match ids with
  | [] => (.ok, [], [], m)
  | id :: rest =>
    match m.RemoveLogBlockUnlocked id with
    | (.ok, some lb, m2) =>
      let m3 : LogBlockManager :=
        { m2 with delete_records := m2.delete_records ++ [.delete id ts] }
      let r := m3.RemoveLogBlocks rest ts
      (r.1, (id, lb) :: r.2.1, r.2.2.1, r.2.2.2)
    | (st, _, m2) =>
      let r := m2.RemoveLogBlocks rest ts
      (st, r.2.1, id :: r.2.2.1, r.2.2.2)

/- ------------------------------------------------------------------
Container lifecycle state machine (claim C5).
------------------------------------------------------------------ -/

/-- Modelled from the spec: the lifecycle states of a container, spec
section 4.B: Fresh, Open, Full, ReadOnly, Dead. The header describes the
sticky read-only flag at lines 118-123. -/
inductive ContainerLifeState
  | Fresh
  | Open
  | Full
  | ReadOnly
  | Dead
deriving DecidableEq, Repr

/-- Modelled from the spec: the events that drive container lifecycle
transitions, spec section 4.B state machine. -/
inductive ContainerEvent
  | activate
  | commitAtLimit
  | commitSyncFailure
  | repairUnrecoverable
deriving DecidableEq, Repr

/-- Modelled from the spec: the container transition function, spec
section 4.B: Fresh to Open on activation; Open to Full on reaching the
block limit at commit; Open to ReadOnly on any commit sync failure; any
state to Dead on repair detecting unrecoverable damage. Events that do
not apply in the current state leave it unchanged. -/
def containerStep (s : ContainerLifeState) : ContainerEvent → ContainerLifeState
  | .activate => if s = .Fresh then .Open else s
  | .commitAtLimit => if s = .Open then .Full else s
  | .commitSyncFailure => if s = .Open then .ReadOnly else s
  | .repairUnrecoverable => .Dead

/-- Runs a sequence of lifecycle events from a starting state. -/
def runContainer (s : ContainerLifeState) (evs : List ContainerEvent) :
    ContainerLifeState :=
  evs.foldl containerStep s

/-- Modelled from the spec: a container accepts writes only while Open
(spec section 3 invariant 3: a container either accepts writes or is
read-only or dead; section 4.B: allocate fails once read_only). -/
def acceptsWrites : ContainerLifeState → Bool
  | .Open => true
  | _ => false

/- ------------------------------------------------------------------
Per-directory container checkout pool (claim C6).
------------------------------------------------------------------ -/

/-- A container as seen by the checkout pool: its name together with the
full and read_only flags that decide whether the pool takes it back
(spec sections 3 and 4.E). -/
structure PoolContainer where
  name : String
  full : Bool
  read_only : Bool
deriving DecidableEq, Repr

/-- Modelled from the spec: LogBlockManager::MakeContainerAvailableUnlocked
(declared at header lines 291-294, implementation not under src/). Spec
section 4.E, on return of a container: a container that reported a
commit failure (read_only) or became full at commit is kept out of the
pool; otherwise it is pushed to the front of the per-directory deque
(header field available_containers_by_data_dir_, lines 455-460; one
directory deque is modelled, front = list head). -/
def MakeContainerAvailableUnlocked (avail : List PoolContainer)
    (c : PoolContainer) : List PoolContainer :=
  if c.full || c.read_only then avail else c :: avail

/-- Modelled from the spec: the checkout half of
LogBlockManager::GetOrCreateContainer (declared at header lines 281-289,
implementation not under src/). Spec section 4.E: checkout takes the
front of the deque; `none` means the pool was empty and a fresh
container is created instead. -/
def checkoutContainer (avail : List PoolContainer) :
    Option PoolContainer × List PoolContainer :=
  match avail with
  | [] => (none, [])
  | c :: rest => (some c, rest)

/-- A pool operation: a writer returns a container, or a writer checks
one out. -/
inductive PoolOp
  | ret (c : PoolContainer)
  | checkout
deriving DecidableEq, Repr

/-- Runs a sequence of pool operations on one directory deque. -/
def runPool (avail : List PoolContainer) : List PoolOp → List PoolContainer
  | [] => avail
  | .ret c :: rest => runPool (MakeContainerAvailableUnlocked avail c) rest
  | .checkout :: rest => runPool (checkoutContainer avail).2 rest

/- ------------------------------------------------------------------
Block id generation (claim C9).
------------------------------------------------------------------ -/

/-- State of the block id generator: the header field next_block_id_
(lines 473-474). -/
structure BlockIdGen where
  next_block_id : Nat
deriving DecidableEq, Repr

/-- Modelled from the spec: the seeding of next_block_id_ at the end of
startup (spec section 4.G step 6: the counter is seeded to strictly
exceed every observed id; implementation not under src/). -/
def seedFromObserved (observed : List Nat) : BlockIdGen :=
  ⟨observed.foldr max 0 + 1⟩

/-- Modelled from the spec: LogBlockManager::NotifyBlockId (declared at
header line 211, implementation not under src/). Spec section 6: bumps
the id counter floor so subsequent creates never collide with an
externally chosen id; the floor after the call is at least id + 1. -/
def BlockIdGen.NotifyBlockId (g : BlockIdGen) (id : Nat) : BlockIdGen :=
  ⟨max g.next_block_id (id + 1)⟩

/-- Modelled from the spec: generation of a fresh block id for an
anonymous block: take the counter value and advance it. -/
def BlockIdGen.genBlockId (g : BlockIdGen) : Nat × BlockIdGen :=
  (g.next_block_id, ⟨g.next_block_id + 1⟩)

/-- An id-generator operation: an external notification or a generation
of a fresh id. -/
inductive IdOp
  | notify (id : Nat)
  | generate
deriving DecidableEq, Repr

/-- The freshness property of a run of id-generator operations: every
generated id differs from every id in `seen` (the observed ids plus the
ids notified so far at that point of the run). -/
def GensFresh : List Nat → BlockIdGen → List IdOp → Prop
  | _, _, [] => True
  | seen, g, .notify id :: rest => GensFresh (id :: seen) (g.NotifyBlockId id) rest
  | seen, g, .generate :: rest =>
      g.next_block_id ∉ seen ∧ GensFresh seen (g.genBlockId).2 rest

/- ------------------------------------------------------------------
Container data file allocation (claim C2).
------------------------------------------------------------------ -/

/-- A reserved byte range of the data file, tagged with the id of the
block written into it. -/
structure Extent where
  block_id : Nat
  offset : Nat
  length : Nat
deriving DecidableEq, Repr

/-- Rounds n up to the next multiple of a. -/
def alignUp (n a : Nat) : Nat := (n + a - 1) / a * a

/-- Modelled from the spec: the allocation state of one container data
file (spec section 3, container fields data_cursor and fs_block_size,
and section 4.B allocate; implementation not under src/). `allocated`
holds every range ever reserved (in reverse order of reservation) and
`live` the ranges of blocks currently published in the index. -/
structure ContainerAlloc where
  fs_block_size : Nat
  data_cursor : Nat
  file_len : Nat
  allocated : List Extent
  live : List Extent
deriving DecidableEq, Repr

/-- Modelled from the spec: allocate(length), spec section 4.B: reserves
`length` bytes starting at align_up(data_cursor, fs_block_size) and
advances the cursor; writing the bytes extends the data file to at
least the end of the reservation. -/
def ContainerAlloc.allocate (s : ContainerAlloc) (id len : Nat) : ContainerAlloc :=
  let off := alignUp s.data_cursor s.fs_block_size
  { s with
    data_cursor := off + len
    file_len := max s.file_len (off + len)
    allocated := ⟨id, off, len⟩ :: s.allocated }

/-- A container starts with empty files and a cursor at zero. -/
def ContainerAlloc.init (fsbs : Nat) : ContainerAlloc := ⟨fsbs, 0, 0, [], []⟩

/-- Modelled from the spec: the steps a container data file goes through
(spec sections 4.B, 4.E and 4.F). Allocation is serialized by the
container mutex, so interleaved writers appear as an arbitrary order of
allocate steps; a block is published into the index (possibly long
after its allocation, and out of order with other writers) only for a
range that was actually reserved; a deletion removes a block from the
live set, and hole punching never contracts the data file. -/
inductive AllocStep : ContainerAlloc → ContainerAlloc → Prop
  | alloc (s : ContainerAlloc) (id len : Nat) : AllocStep s (s.allocate id len)
  | publish (s : ContainerAlloc) (e : Extent) (he : e ∈ s.allocated) :
      AllocStep s { s with live := e :: s.live }
  | unpublish (s : ContainerAlloc) (e : Extent) :
      AllocStep s { s with live := s.live.erase e }

/-- The reachable states of a container data file with a positive
filesystem block size. -/
def ReachableAlloc (fsbs : Nat) (s : ContainerAlloc) : Prop :=
  Relation.ReflTransGen AllocStep (ContainerAlloc.init fsbs) s

/-- Two byte ranges share no byte. -/
def NoOverlap (a b : Extent) : Prop :=
  ∀ x : Nat, ¬(a.offset ≤ x ∧ x < a.offset + a.length ∧
    b.offset ≤ x ∧ x < b.offset + b.length)

/-- The inductive invariant of the allocation state. -/
structure AllocInv (s : ContainerAlloc) : Prop where
  pos : 0 < s.fs_block_size
  cursor_le : s.data_cursor ≤ s.file_len
  bounded : ∀ e ∈ s.allocated, e.offset + e.length ≤ s.data_cursor
  disjoint : s.allocated.Pairwise NoOverlap
  live_sub : ∀ e ∈ s.live, e ∈ s.allocated

/- ------------------------------------------------------------------
Metadata replay (shared by claims C1 and C7).
------------------------------------------------------------------ -/

/-- The live-record map built during replay: BlockId to its latest CREATE
record (spec section 4.G step 2, local map live_records). -/
abbrev LiveMap := List (Nat × BlockRecordPB)

/-- Whether the live-record map holds the given id. -/
def containsId (m : LiveMap) (id : Nat) : Bool :=
  m.any (fun p => p.1 == id)

/-- Removal of an id from the live-record map. -/
def eraseId (m : LiveMap) (id : Nat) : LiveMap :=
  m.filter (fun p => p.1 != id)

/-- Modelled from the spec: one replay step, spec section 4.G step 2:
CREATE inserts into live_records, DELETE removes; a duplicate CREATE for
an id already live is corrupt, as is a DELETE for an id not present.
`none` signals corruption. -/
def replayStep (m : LiveMap) : BlockRecordPB → Option LiveMap
  | .create id off len ts =>
      if containsId m id then none else some ((id, .create id off len ts) :: m)
  | .delete id _ =>
      if containsId m id then some (eraseId m id) else none

/-- Modelled from the spec: replay of a metadata record sequence from the
start (spec section 4.G step 2), threading the live-record map. -/
def replayList (m : LiveMap) : List BlockRecordPB → Option LiveMap
  | [] => some m
  | r :: rest =>
    match replayStep m r with
    | none => none
    | some m2 => replayList m2 rest

/-- The last record mentioning `id` in the sequence, reported as
`some true` for a CREATE, `some false` for a DELETE, `none` when no
record mentions the id. -/
def lastOpOn (rs : List BlockRecordPB) (id : Nat) : Option Bool :=
  rs.foldl
    (fun acc r =>
      match r with
      | .create id2 _ _ _ => if id2 = id then some true else acc
      | .delete id2 _ => if id2 = id then some false else acc)
    none

/-- Whether the last record mentioning `id` is a CREATE: the id has a
committed CREATE not followed by a committed DELETE. -/
def liveByLastOp (rs : List BlockRecordPB) (id : Nat) : Bool :=
  match lastOpOn rs id with
  | some true => true
  | _ => false

/- ------------------------------------------------------------------
Crash consistency of one metadata stream (claim C1).
------------------------------------------------------------------ -/

/-- Modelled from the spec: the micro-events of the write and delete
protocol as seen by one container metadata file (spec section 4.F): a
record is appended, and a sync makes every appended record durable. A
commit whose sync succeeded before the crash has its records durable; a
transaction whose sync never ran loses its appended records at the
crash. -/
inductive DiskEv
  | append (r : BlockRecordPB)
  | sync
deriving DecidableEq, Repr

/-- The durable and not-yet-synced contents of the metadata file. -/
structure MetaFile where
  durable : List BlockRecordPB
  pending : List BlockRecordPB
deriving DecidableEq, Repr

/-- Modelled from the spec: effect of one micro-event on the metadata
file (spec section 4.F and section 2 data flow): append adds the record
behind the durability barrier, sync moves everything appended into the
durable image. -/
def stepEv (s : MetaFile) : DiskEv → MetaFile
  | .append r => { s with pending := s.pending ++ [r] }
  | .sync => ⟨s.durable ++ s.pending, []⟩

/-- Runs the micro-events of an execution; a crash then discards
`pending`, so recovery reads exactly `durable`. -/
def runEvs (evs : List DiskEv) : MetaFile :=
  evs.foldl stepEv ⟨[], []⟩

/-- Whether the event list still contains a sync. -/
def hasSync : List DiskEv → Bool
  | [] => false
  | .sync :: _ => true
  | .append _ :: rest => hasSync rest

/-- The records whose append was followed by a sync before the crash,
i.e. the records of the transactions that committed, in append order. -/
def committedRecords : List DiskEv → List BlockRecordPB
  | [] => []
  | .append r :: rest => (if hasSync rest then [r] else []) ++ committedRecords rest
  | .sync :: rest => committedRecords rest

/- ------------------------------------------------------------------
Metadata compaction at startup (claim C7).
------------------------------------------------------------------ -/

/-- Suffix of container metadata files (header line 182 declares
kContainerMetadataFileSuffix; spec section 6 filesystem layout). -/
def kContainerMetadataFileSuffix : String := ".metadata"

/-- Suffix of container data files (header line 183; spec section 6). -/
def kContainerDataFileSuffix : String := ".data"

/-- Suffix used for the temporary file of a metadata rewrite. -/
def kTmpFileSuffix : String := ".tmp"

/-- A container location: its data directory and its name stem. -/
structure ContainerRef where
  dir : String
  stem : String
deriving DecidableEq, Repr

/-- Path of the container metadata file. -/
def ContainerRef.metadataPath (c : ContainerRef) : String :=
  c.dir ++ "/" ++ c.stem ++ kContainerMetadataFileSuffix

/-- Path of the temporary file the metadata rewrite writes first. -/
def ContainerRef.tmpMetadataPath (c : ContainerRef) : String :=
  c.metadataPath ++ kTmpFileSuffix

/-- A small filesystem state: files with their decoded record contents,
the set of files made durable by fsync, the set of directories made
durable by fsync, and the dirty_dirs set of the block manager (header
line 465). -/
structure FsState where
  files : List (String × List BlockRecordPB)
  synced_files : List String
  synced_dirs : List String
  dirty_dirs : List String
deriving DecidableEq, Repr

/-- Content of a file, if present. -/
def FsState.readFile (fs : FsState) (path : String) : Option (List BlockRecordPB) :=
  (fs.files.find? (fun p => p.1 == path)).map Prod.snd

/-- Creating or overwriting a file; the written file is not durable until
it is fsynced. -/
def FsState.writeFile (fs : FsState) (path : String)
    (content : List BlockRecordPB) : FsState :=
  { fs with
    files := (path, content) :: fs.files.filter (fun p => p.1 != path)
    synced_files := fs.synced_files.filter (fun q => q != path) }

/-- fsync of a file. -/
def FsState.fsyncFile (fs : FsState) (path : String) : FsState :=
  { fs with synced_files := path :: fs.synced_files }

/-- Atomic rename of src over dst. The destination keeps the source
content and durability; no directory fsync happens here. -/
def FsState.renameFile (fs : FsState) (src dst : String) : FsState :=
  match fs.readFile src with
  | none => fs
  | some content =>
    { fs with
      files := (dst, content) ::
        fs.files.filter (fun p => p.1 != src && p.1 != dst)
      synced_files :=
        (if fs.synced_files.contains src then [dst] else []) ++
          fs.synced_files.filter (fun q => q != src) }

/-- Modelled from the spec: LogBlockManager::RewriteMetadataFile (declared
at header lines 361-372, implementation not under src/): the records are
written to a temporary file, the temporary file is fsynced, then renamed
over the existing metadata file; the parent directory is not fsynced
here. -/
def RewriteMetadataFile (fs : FsState) (c : ContainerRef)
    (records : List BlockRecordPB) : FsState :=
  (((fs.writeFile c.tmpMetadataPath records).fsyncFile
    c.tmpMetadataPath).renameFile c.tmpMetadataPath c.metadataPath)

/-- Modelled from the spec: the metadata compaction step of
LogBlockManager::Repair for one container (declared at header lines
344-359, implementation not under src/). Spec section 4.G step 5: a
container whose live fraction of records is below the threshold num/den
has its metadata rewritten by projecting live_records into a new file;
the parent directory is added to dirty_dirs for a batched barrier
instead of being fsynced by the compactor. A container whose replay is
corrupt is handled by the dead-container path, not compacted. -/
def RepairCompactContainer (fs : FsState) (c : ContainerRef)
    (md : List BlockRecordPB) (num den : Nat) : FsState :=
  match replayList [] md with
  | none => fs
  | some live =>
    if live.length * den < num * md.length then
      let fs2 := RewriteMetadataFile fs c (live.map Prod.snd)
      { fs2 with dirty_dirs := c.dir :: fs2.dirty_dirs }
    else fs

/- ------------------------------------------------------------------
Record codec (claim C8). Spec section 6 fixes the frame layout:
frame := length:uvarint kind:u8 payload:bytes[length-1] crc32c:u32
where crc32c covers kind followed by the payload.
------------------------------------------------------------------ -/

/-- Little-endian base-128 varint encoding of a natural number. -/
def encodeUvarint (n : Nat) : List Nat :=
  if h : n < 128 then [n]
  else (n % 128 + 128) :: encodeUvarint (n / 128)
termination_by n
decreasing_by exact Nat.div_lt_self (by omega) (by omega)

/-- Varint decoding; `none` when the bytes end before the final group
(an incomplete length is a short tail). -/
def decodeUvarint : List Nat → Option (Nat × List Nat)
  | [] => none
  | b :: rest =>
    if b < 128 then some (b, rest)
    else
      match decodeUvarint rest with
      | none => none
      | some (v, r) => some (b % 128 + 128 * v, r)

/-- Little-endian fixed-width byte encoding: k bytes of n. -/
def encBytes : Nat → Nat → List Nat
  | 0, _ => []
  | k + 1, n => n % 256 :: encBytes k (n / 256)

/-- Little-endian byte decoding. -/
def decBytes : List Nat → Nat
  | [] => 0
  | b :: rest => b + 256 * decBytes rest

/-- One bit step of the reflected CRC-32C computation
(polynomial 0x82F63B78). -/
def crc32cStepBit (c : Nat) : Nat :=
  if c % 2 = 1 then (c / 2) ^^^ 0x82F63B78 else c / 2

/-- One byte step of CRC-32C. -/
def crc32cByte (c b : Nat) : Nat :=
  crc32cStepBit^[8] (c ^^^ b % 256)

/-- CRC-32C of a byte sequence (init and final xor 0xFFFFFFFF). -/
def crc32c (bytes : List Nat) : Nat :=
  ((bytes.foldl crc32cByte 0xFFFFFFFF) ^^^ 0xFFFFFFFF) % 2 ^ 32

/-- The kind tag of a record frame: 1 for CREATE, 2 for DELETE. -/
def kindOf : BlockRecordPB → Nat
  | .create _ _ _ _ => 1
  | .delete _ _ => 2

/-- The frame payload: the record fields as little-endian u64 values
(spec section 6: create holds block_id, offset, length, ts_micros;
delete holds block_id, ts_micros). -/
def payloadOf : BlockRecordPB → List Nat
  | .create id off len ts =>
      encBytes 8 id ++ encBytes 8 off ++ encBytes 8 len ++ encBytes 8 ts
  | .delete id ts => encBytes 8 id ++ encBytes 8 ts

/-- A record whose fields fit in 64 bits, as the frame layout requires. -/
def ValidRecord : BlockRecordPB → Prop
  | .create id off len ts =>
      id < 2 ^ 64 ∧ off < 2 ^ 64 ∧ len < 2 ^ 64 ∧ ts < 2 ^ 64
  | .delete id ts => id < 2 ^ 64 ∧ ts < 2 ^ 64

/-- Frame encoding of one record per spec section 6: the uvarint length
of kind plus payload, the kind byte, the payload, then the CRC-32C of
kind and payload as a little-endian u32. -/
def encodeRecord (r : BlockRecordPB) : List Nat :=
  encodeUvarint (kindOf r :: payloadOf r).length ++
    ((kindOf r :: payloadOf r) ++ encBytes 4 (crc32c (kindOf r :: payloadOf r)))

/-- Concatenated frame encoding of a record sequence. -/
def encodeRecords : List BlockRecordPB → List Nat
  | [] => []
  | r :: rest => encodeRecord r ++ encodeRecords rest

/-- A frame body identical to that of `r` but carrying a wrong stored
checksum: an interior corrupted record. -/
def corruptFrame (r : BlockRecordPB) : List Nat :=
  encodeUvarint (kindOf r :: payloadOf r).length ++
    ((kindOf r :: payloadOf r) ++
      encBytes 4 ((crc32c (kindOf r :: payloadOf r) + 1) % 2 ^ 32))

/-- Parsing of a frame body (kind byte plus payload) back to a record. -/
def parseRecord : List Nat → Option BlockRecordPB
  | 1 :: p =>
    if p.length = 32 then
      some (.create (decBytes (p.take 8)) (decBytes ((p.drop 8).take 8))
        (decBytes ((p.drop 16).take 8)) (decBytes (p.drop 24)))
    else none
  | 2 :: p =>
    if p.length = 16 then
      some (.delete (decBytes (p.take 8)) (decBytes (p.drop 8)))
    else none
  | _ => none

/-- Outcome of decoding a metadata file (spec sections 4.A and 4.G):
a clean end of file, a truncated trailing frame (the only recoverable
decode error), or corruption (checksum mismatch or a malformed body),
which is fatal for the container. -/
inductive DecodeOutcome
  | ok
  | truncated
  | corrupt
deriving DecidableEq, Repr

/-- Length consumed by a successful uvarint decode is positive. -/
theorem decodeUvarint_shrinks :
    ∀ (l : List Nat) (v : Nat) (rest : List Nat),
      decodeUvarint l = some (v, rest) → rest.length < l.length := by
  intro l
  induction l with
  | nil => intro v rest h; simp [decodeUvarint] at h
  | cons b bs ih =>
    intro v rest h
    simp only [decodeUvarint] at h
    by_cases hb : b < 128
    · simp only [hb, if_true] at h
      have hr : bs = rest := by
        have := congrArg Prod.snd (Option.some.inj h)
        simpa using this
      rw [← hr]
      simp [List.length_cons]
    · simp only [hb, if_false] at h
      rcases h2 : decodeUvarint bs with _ | ⟨v2, r2⟩
      · rw [h2] at h; exact absurd h (by simp)
      · rw [h2] at h
        have hr : r2 = rest := by
          have := congrArg Prod.snd (Option.some.inj h)
          simpa using this
        rw [← hr]
        have := ih v2 r2 h2
        simp only [List.length_cons]
        omega

/-- Modelled from the spec: the metadata file decoder of startup replay
(spec sections 4.A, 4.G step 2 and section 6). It walks the frames from
the start; a short tail (incomplete length, body or checksum) stops with
`truncated` and the unconsumed tail bytes, so the caller can truncate
the file at the last valid frame boundary; a stored checksum that does
not match the body, or a malformed body, stops with `corrupt`. Returns
the records decoded before the stop. -/
def decodeFrames (bytes : List Nat) :
    List BlockRecordPB × DecodeOutcome × List Nat :=
  if bytes.isEmpty then ([], .ok, [])
  else
    match h : decodeUvarint bytes with
    | none => ([], .truncated, bytes)
    | some (len, rest) =>
      if rest.length < len + 4 then ([], .truncated, bytes)
      else if decBytes ((rest.drop len).take 4) = crc32c (rest.take len) then
        match parseRecord (rest.take len) with
        | none => ([], .corrupt, bytes)
        | some r =>
          let res := decodeFrames (rest.drop (len + 4))
          (r :: res.1, res.2.1, res.2.2)
      else ([], .corrupt, bytes)
termination_by bytes.length
decreasing_by
  have h1 : rest.length < bytes.length := decodeUvarint_shrinks bytes len rest h
  simp only [List.length_drop]
  omega

/- ==================================================================
Theorems.
================================================================== -/

/-- Claim C10: for every latch count c and every CountDown(amount) with
amount nonnegative (and representable), a zero count is unchanged, an
amount at least the count zeroes it exactly, a smaller amount subtracts,
the count never increases (no wrap below zero), and only Reset can set
an arbitrary count. -/
theorem countDown_saturating_spec (c : Nat) (a : Int)
    (ha0 : 0 ≤ a) (ha64 : a < 2 ^ 64) :
    (c = 0 → ((CountDownLatch.mk c).CountDown a).count = c) ∧
    (a.toNat ≥ c → ((CountDownLatch.mk c).CountDown a).count = 0) ∧
    (a.toNat < c → ((CountDownLatch.mk c).CountDown a).count = c - a.toNat) ∧
    ((CountDownLatch.mk c).CountDown a).count ≤ c ∧
    (∀ n : Nat, ((CountDownLatch.mk c).Reset n).count = n) := by
  have htoU : toU64 a = a.toNat := by
    simp only [toU64]
    rw [Int.emod_eq_of_lt ha0 ha64]
  refine ⟨?_, ?_, ?_, ?_, fun n => rfl⟩
  · intro hc
    simp [CountDownLatch.CountDown, hc]
  · intro hge
    rcases Nat.eq_zero_or_pos c with hc | hc
    · simp [CountDownLatch.CountDown, hc]
    · have h1 : ¬ c = 0 := by omega
      have h2 : c ≤ toU64 a := by rw [htoU]; omega
      simp [CountDownLatch.CountDown, h1, h2]
  · intro hlt
    have h1 : ¬ c = 0 := by omega
    have h2 : ¬ c ≤ toU64 a := by rw [htoU]; omega
    have h2b : ¬ c ≤ a.toNat := by omega
    simp only [CountDownLatch.CountDown, if_neg h1, htoU, if_neg h2b]
  · rcases Nat.eq_zero_or_pos c with hc | hc
    · simp [CountDownLatch.CountDown, hc]
    · have h1 : ¬ c = 0 := by omega
      by_cases h2 : c ≤ toU64 a
      · simp [CountDownLatch.CountDown, h1, h2]
      · simp only [CountDownLatch.CountDown, if_neg h1, if_neg h2]
        omega

/-- Concrete instance of the CountDown specification: a latch at 5
counted down by 3 holds 2. -/
theorem countDown_saturating_spec_witness :
    ((0 : Int) ≤ 3 ∧ (3 : Int) < 2 ^ 64) ∧
    ((CountDownLatch.mk 5).CountDown 3).count = 5 - (3 : Int).toNat := by
  refine ⟨⟨by norm_num, by norm_num⟩, ?_⟩
  exact (countDown_saturating_spec 5 3 (by norm_num) (by norm_num)).2.2.1 (by decide)

/-- Claim C3: publishing a CREATE (AddLogBlock) or claiming an id for
write (TryUseBlockId) fails, leaving the state unchanged, exactly when
the id is already in the blocks map or in the open-ids set; on a free id
both succeed with the single expected insertion. -/
theorem index_insert_rejects_duplicates (m : LogBlockManager) (container : String)
    (id : BlockId) (off len : Nat) :
    (m.idInUse id = true →
      m.AddLogBlock container id off len = (.alreadyPresent, m) ∧
      m.TryUseBlockId id = (false, m)) ∧
    (m.idInUse id = false →
      m.AddLogBlock container id off len =
        (.ok, { m with blocks_by_block_id :=
          (id, ⟨container, id, off, len⟩) :: m.blocks_by_block_id }) ∧
      m.TryUseBlockId id = (true, { m with open_block_ids := id :: m.open_block_ids })) := by
  constructor <;> intro h <;>
    simp [LogBlockManager.AddLogBlock, LogBlockManager.TryUseBlockId, h]

/-- Concrete instance of the insert specification on an empty index. -/
theorem index_insert_rejects_duplicates_witness :
    (LogBlockManager.mk [] [] []).idInUse 7 = false ∧
    (LogBlockManager.mk [] [] []).AddLogBlock "c0" 7 0 16 =
      (.ok, LogBlockManager.mk [(7, ⟨"c0", 7, 0, 16⟩)] [] []) := by
  refine ⟨by decide, ?_⟩
  exact ((index_insert_rejects_duplicates (LogBlockManager.mk [] [] []) "c0" 7 0 16).2
    (by decide)).1

/-- Claim C5: container state is monotonic: starting from ReadOnly or
Dead, no event sequence ever reaches Open again and no state reached
accepts writes; and a commit sync failure moves an Open container to
ReadOnly. -/
theorem container_state_monotonic (s : ContainerLifeState) (evs : List ContainerEvent)
    (h : s = .ReadOnly ∨ s = .Dead) :
    runContainer s evs ≠ .Open ∧ acceptsWrites (runContainer s evs) = false ∧
    containerStep .Open .commitSyncFailure = .ReadOnly := by
  have key : ∀ (evs : List ContainerEvent) (s : ContainerLifeState),
      (s = ContainerLifeState.ReadOnly ∨ s = ContainerLifeState.Dead) →
      (runContainer s evs = .ReadOnly ∨ runContainer s evs = .Dead) := by
    intro evs
    induction evs with
    | nil => intro s hs; simpa [runContainer] using hs
    | cons e rest ih =>
      intro s hs
      have hstep : containerStep s e = .ReadOnly ∨ containerStep s e = .Dead := by
        rcases hs with h1 | h1 <;> subst h1 <;> cases e <;> simp [containerStep]
      have hrun : runContainer s (e :: rest) = runContainer (containerStep s e) rest := rfl
      rw [hrun]
      exact ih _ hstep
  have hk := key evs s h
  refine ⟨?_, ?_, rfl⟩
  · rcases hk with h1 | h1 <;> simp [h1]
  · rcases hk with h1 | h1 <;> simp [h1, acceptsWrites]

/-- Concrete instance of container monotonicity: a ReadOnly container
stays away from Open across further events. -/
theorem container_state_monotonic_witness :
    (ContainerLifeState.ReadOnly = ContainerLifeState.ReadOnly ∨
      ContainerLifeState.ReadOnly = ContainerLifeState.Dead) ∧
    runContainer .ReadOnly [ContainerEvent.activate, ContainerEvent.commitAtLimit] ≠
      .Open :=
  ⟨Or.inl rfl,
    (container_state_monotonic .ReadOnly
      [ContainerEvent.activate, ContainerEvent.commitAtLimit] (Or.inl rfl)).1⟩

/-- Claim C6: container checkout is LIFO: returning a container that is
neither full nor read-only pushes it to the deque front and the next
checkout hands exactly it back, restoring the previous deque; a full or
read-only container is never re-entered; and a pool of good containers
stays free of full or read-only containers under any operation
sequence. -/
theorem pool_checkout_lifo (avail : List PoolContainer) (c : PoolContainer) :
    (c.full = false → c.read_only = false →
      checkoutContainer (MakeContainerAvailableUnlocked avail c) = (some c, avail)) ∧
    (c.full = true ∨ c.read_only = true →
      MakeContainerAvailableUnlocked avail c = avail) ∧
    (∀ ops, (∀ d ∈ avail, d.full = false ∧ d.read_only = false) →
      ∀ d ∈ runPool avail ops, d.full = false ∧ d.read_only = false) := by
  refine ⟨?_, ?_, ?_⟩
  · intro h1 h2
    simp [MakeContainerAvailableUnlocked, h1, h2, checkoutContainer]
  · intro h
    rcases h with h | h <;> simp [MakeContainerAvailableUnlocked, h]
  · intro ops
    induction ops generalizing avail with
    | nil => intro h; simpa [runPool] using h
    | cons op rest ih =>
      intro h
      cases op with
      | ret c2 =>
        simp only [runPool]
        apply ih
        intro d hd
        by_cases hc : (c2.full || c2.read_only) = true
        · rw [MakeContainerAvailableUnlocked, if_pos hc] at hd
          exact h d hd
        · rw [MakeContainerAvailableUnlocked, if_neg hc] at hd
          rcases List.mem_cons.mp hd with h1 | h1
          · subst h1
            simpa using hc
          · exact h d h1
      | checkout =>
        simp only [runPool]
        apply ih
        intro d hd
        apply h
        cases avail with
        | nil => simpa [checkoutContainer] using hd
        | cons a rest2 =>
          simp only [checkoutContainer] at hd
          exact List.mem_cons_of_mem _ hd

/-- Concrete instance of the LIFO checkout law. -/
theorem pool_checkout_lifo_witness :
    (PoolContainer.mk "a" false false).full = false ∧
    checkoutContainer (MakeContainerAvailableUnlocked [PoolContainer.mk "b" false false]
      (PoolContainer.mk "a" false false)) =
      (some (PoolContainer.mk "a" false false), [PoolContainer.mk "b" false false]) := by
  refine ⟨rfl, ?_⟩
  exact (pool_checkout_lifo [PoolContainer.mk "b" false false]
    (PoolContainer.mk "a" false false)).1 rfl rfl

/-- Claim C9: the seeded counter strictly exceeds every observed id;
NotifyBlockId raises the counter floor to at least id + 1; and in any
run of notifications and generations starting from the seeded counter,
every generated id differs from every observed id and from every id
notified before the generation. -/
theorem block_id_freshness (observed : List Nat) (g : BlockIdGen) (nid : Nat)
    (ops : List IdOp) :
    (∀ id ∈ observed, id < (seedFromObserved observed).next_block_id) ∧
    nid + 1 ≤ (g.NotifyBlockId nid).next_block_id ∧
    GensFresh observed (seedFromObserved observed) ops := by
  have hmax : ∀ (l : List Nat) (id : Nat), id ∈ l → id ≤ l.foldr max 0 := by
    intro l
    induction l with
    | nil => intro id h; simp at h
    | cons a rest ih =>
      intro id h
      rcases List.mem_cons.mp h with h1 | h1
      · subst h1
        exact le_max_left _ _
      · exact le_trans (ih id h1) (le_max_right _ _)
  have hfresh : ∀ (ops : List IdOp) (seen : List Nat) (g : BlockIdGen),
      (∀ x ∈ seen, x < g.next_block_id) → GensFresh seen g ops := by
    intro ops
    induction ops with
    | nil => intro seen g _; trivial
    | cons op rest ih =>
      intro seen g h
      cases op with
      | notify id =>
        simp only [GensFresh]
        apply ih
        intro x hx
        rcases List.mem_cons.mp hx with h1 | h1
        · subst h1
          simp only [BlockIdGen.NotifyBlockId]
          exact lt_of_lt_of_le (Nat.lt_succ_self x) (le_max_right _ _)
        · exact lt_of_lt_of_le (h x h1) (le_max_left _ _)
      | generate =>
        refine ⟨?_, ?_⟩
        · intro hmem
          exact absurd (h _ hmem) (lt_irrefl _)
        · apply ih
          intro x hx
          simp only [BlockIdGen.genBlockId]
          exact lt_trans (h x hx) (Nat.lt_succ_self _)
  refine ⟨?_, ?_, ?_⟩
  · intro id h
    have := hmax observed id h
    simp only [seedFromObserved]
    omega
  · simp only [BlockIdGen.NotifyBlockId]
    exact le_max_right _ _
  · apply hfresh
    intro x hx
    have := hmax observed x hx
    simp only [seedFromObserved]
    omega

/-- Concrete instance of id freshness: seeding over observed ids 3 and 10
yields counter 11, and a run notifying 20 then generating stays
collision free. -/
theorem block_id_freshness_witness :
    (seedFromObserved [3, 10]).next_block_id = 11 ∧
    GensFresh [3, 10] (seedFromObserved [3, 10]) [IdOp.notify 20, IdOp.generate] := by
  refine ⟨rfl, ?_⟩
  exact (block_id_freshness [3, 10] ⟨0⟩ 5 [IdOp.notify 20, IdOp.generate]).2.2

/-- Lookup distributes over cons. -/
theorem lookupBlock_cons (p : BlockId × LogBlock) (l : List (BlockId × LogBlock))
    (x : BlockId) :
    lookupBlock (p :: l) x = if p.1 = x then some p.2 else lookupBlock l x := by
  by_cases h : p.1 = x
  · simp [lookupBlock, List.find?_cons_of_pos, h]
  · simp [lookupBlock, List.find?_cons_of_neg, h]

/-- Erasure distributes over cons. -/
theorem eraseBlock_cons (p : BlockId × LogBlock) (l : List (BlockId × LogBlock))
    (id : BlockId) :
    eraseBlock (p :: l) id =
      if p.1 = id then eraseBlock l id else p :: eraseBlock l id := by
  by_cases h : p.1 = id <;> simp [eraseBlock, List.filter_cons, h]

/-- Erasing one key leaves lookups of other keys unchanged. -/
theorem lookupBlock_erase (bs : List (BlockId × LogBlock)) (id x : BlockId)
    (h : x ≠ id) :
    lookupBlock (eraseBlock bs id) x = lookupBlock bs x := by
  induction bs with
  | nil => rfl
  | cons p rest ih =>
    rw [eraseBlock_cons, lookupBlock_cons]
    by_cases h1 : p.1 = id
    · have h2 : ¬ p.1 = x := by rw [h1]; exact fun he => h he.symm
      rw [if_pos h1, if_neg h2, ih]
    · rw [if_neg h1, lookupBlock_cons, ih]

/-- An absent key has no entry in the map. -/
theorem lookupBlock_eq_none_forall (bs : List (BlockId × LogBlock)) (x : BlockId)
    (h : lookupBlock bs x = none) : ∀ p ∈ bs, p.1 ≠ x := by
  intro p hp he
  induction bs with
  | nil => simp at hp
  | cons q rest ih =>
    rw [lookupBlock_cons] at h
    by_cases h1 : q.1 = x
    · rw [if_pos h1] at h; exact absurd h (by simp)
    · rw [if_neg h1] at h
      rcases List.mem_cons.mp hp with h2 | h2
      · subst h2; exact h1 he
      · exact ih h h2

/-- Pointwise equal predicates filter identically. -/
theorem list_filter_congr_local {α : Type} (l : List α) (f g : α → Bool)
    (h : ∀ x ∈ l, f x = g x) : l.filter f = l.filter g := by
  induction l with
  | nil => rfl
  | cons a rest ih =>
    simp only [List.filter_cons, h a (by simp)]
    rw [ih (fun x hx => h x (by simp [hx]))]

/-- Pointwise equal predicates agree on all. -/
theorem list_all_congr_local {α : Type} (l : List α) (f g : α → Bool)
    (h : ∀ x ∈ l, f x = g x) : l.all f = l.all g := by
  induction l with
  | nil => rfl
  | cons a rest ih =>
    simp only [List.all_cons, h a (by simp)]
    rw [ih (fun x hx => h x (by simp [hx]))]

/-- Claim C4: for a batch of distinct ids, RemoveLogBlocks removes
exactly the ids present in the index (appending one DELETE record for
each), reports the missing ids as already deleted (NotFound) without
appending records for them, returns the first failure seen, and touches
nothing else. -/
theorem remove_batch_spec (m : LogBlockManager) (ids : List BlockId) (ts : Nat)
    (hnd : ids.Nodup) :
    (m.RemoveLogBlocks ids ts).1 =
      (if ids.all (fun id => m.containsBlock id) then Status.ok else Status.notFound) ∧
    (m.RemoveLogBlocks ids ts).2.1.map Prod.fst =
      ids.filter (fun id => m.containsBlock id) ∧
    (m.RemoveLogBlocks ids ts).2.2.1 =
      ids.filter (fun id => !(m.containsBlock id)) ∧
    (m.RemoveLogBlocks ids ts).2.2.2.delete_records =
      m.delete_records ++ (ids.filter (fun id => m.containsBlock id)).map
        (fun id => BlockRecordPB.delete id ts) ∧
    (m.RemoveLogBlocks ids ts).2.2.2.blocks_by_block_id =
      m.blocks_by_block_id.filter (fun p => !(ids.contains p.1)) ∧
    (m.RemoveLogBlocks ids ts).2.2.2.open_block_ids = m.open_block_ids := by
  induction ids generalizing m with
  | nil =>
    refine ⟨by simp [LogBlockManager.RemoveLogBlocks], by simp [LogBlockManager.RemoveLogBlocks],
      by simp [LogBlockManager.RemoveLogBlocks], by simp [LogBlockManager.RemoveLogBlocks],
      ?_, by simp [LogBlockManager.RemoveLogBlocks]⟩
    simp [LogBlockManager.RemoveLogBlocks]
  | cons id rest ih =>
    have hnd2 : id ∉ rest ∧ rest.Nodup := by simpa [List.nodup_cons] using hnd
    by_cases hc : m.containsBlock id = true
    · obtain ⟨lb, hlb⟩ := Option.isSome_iff_exists.mp hc
      have hrm : m.RemoveLogBlockUnlocked id =
          (.ok, some lb,
            { m with blocks_by_block_id := eraseBlock m.blocks_by_block_id id }) := by
        simp [LogBlockManager.RemoveLogBlockUnlocked, hlb]
      set m3 : LogBlockManager :=
        { m with
          blocks_by_block_id := eraseBlock m.blocks_by_block_id id,
          delete_records := m.delete_records ++ [BlockRecordPB.delete id ts] } with hm3
      have hred : m.RemoveLogBlocks (id :: rest) ts =
          ((m3.RemoveLogBlocks rest ts).1,
            (id, lb) :: (m3.RemoveLogBlocks rest ts).2.1,
            (m3.RemoveLogBlocks rest ts).2.2.1,
            (m3.RemoveLogBlocks rest ts).2.2.2) := by
        conv_lhs => rw [LogBlockManager.RemoveLogBlocks]
        rw [hrm, hm3]
      have hT : ∀ x ∈ rest, m3.containsBlock x = m.containsBlock x := by
        intro x hx
        have hxne : x ≠ id := fun he => hnd2.1 (he ▸ hx)
        simp only [LogBlockManager.containsBlock, hm3]
        rw [lookupBlock_erase _ _ _ hxne]
      obtain ⟨ih1, ih2, ih3, ih4, ih5, ih6⟩ := ih m3 hnd2.2
      rw [hred]
      refine ⟨?_, ?_, ?_, ?_, ?_, ?_⟩
      · rw [ih1, list_all_congr_local rest _ _ hT]
        simp [List.all_cons, hc]
      · simp only [List.map_cons, ih2,
          list_filter_congr_local rest _ _ hT, List.filter_cons, hc]
        simp
      · rw [ih3, list_filter_congr_local rest _ _ (fun x hx => by rw [hT x hx])]
        simp [List.filter_cons, hc]
      · rw [ih4, list_filter_congr_local rest _ _ hT]
        simp [hm3, List.filter_cons, hc]
      · rw [ih5]
        simp only [hm3]
        rw [show eraseBlock m.blocks_by_block_id id =
          m.blocks_by_block_id.filter (fun p => p.1 != id) from rfl]
        rw [List.filter_filter]
        apply list_filter_congr_local
        intro p _
        by_cases h1 : p.1 = id
        · simp [h1]
        · by_cases h2 : rest.contains p.1 <;> simp [h1, h2]
      · rw [ih6]
    · have hlb : lookupBlock m.blocks_by_block_id id = none := by
        rcases ho : lookupBlock m.blocks_by_block_id id with _ | v
        · rfl
        · exact absurd (by simp [LogBlockManager.containsBlock, ho]) hc
      have hrm : m.RemoveLogBlockUnlocked id = (.notFound, none, m) := by
        simp [LogBlockManager.RemoveLogBlockUnlocked, hlb]
      have hred : m.RemoveLogBlocks (id :: rest) ts =
          (.notFound, (m.RemoveLogBlocks rest ts).2.1,
            id :: (m.RemoveLogBlocks rest ts).2.2.1,
            (m.RemoveLogBlocks rest ts).2.2.2) := by
        conv_lhs => rw [LogBlockManager.RemoveLogBlocks]
        rw [hrm]
      obtain ⟨ih1, ih2, ih3, ih4, ih5, ih6⟩ := ih m hnd2.2
      rw [hred]
      have hcf : m.containsBlock id = false := by simpa using hc
      refine ⟨?_, ?_, ?_, ?_, ?_, ?_⟩
      · simp [List.all_cons, hcf]
      · rw [ih2]
        simp [List.filter_cons, hcf]
      · rw [ih3]
        simp [List.filter_cons, hcf]
      · rw [ih4]
        simp [List.filter_cons, hcf]
      · rw [ih5]
        have hnone : ∀ p ∈ m.blocks_by_block_id, p.1 ≠ id :=
          lookupBlock_eq_none_forall _ _ hlb
        apply list_filter_congr_local
        intro p hp
        have := hnone p hp
        by_cases h2 : rest.contains p.1 <;> simp [this, h2]
      · exact ih6

/-- Concrete instance of the batch removal specification: removing ids 1
and 9 from an index holding only 1 removes 1, reports 9 NotFound, and
appends one DELETE record. -/
theorem remove_batch_spec_witness :
    [1, 9].Nodup ∧
    ((LogBlockManager.mk [(1, ⟨"c0", 1, 0, 8⟩)] [] []).RemoveLogBlocks [1, 9] 5).1 =
      Status.notFound := by
  refine ⟨by decide, ?_⟩
  have h := (remove_batch_spec (LogBlockManager.mk [(1, ⟨"c0", 1, 0, 8⟩)] [] [])
    [1, 9] 5 (by decide)).1
  rw [h]
  decide

/-- Alignment never moves the cursor backwards. -/
theorem alignUp_ge (n a : Nat) (ha : 0 < a) : n ≤ alignUp n a := by
  have h1 := Nat.div_add_mod (n + a - 1) a
  have h2 : (n + a - 1) % a < a := Nat.mod_lt _ ha
  have h3 : alignUp n a = a * ((n + a - 1) / a) := by
    rw [alignUp, Nat.mul_comm]
  omega

/-- The invariant holds initially. -/
theorem allocInv_init (fsbs : Nat) (h : 0 < fsbs) :
    AllocInv (ContainerAlloc.init fsbs) := by
  refine ⟨h, le_refl 0, ?_, ?_, ?_⟩ <;> simp [ContainerAlloc.init]

/-- Every allocation step preserves the invariant. -/
theorem allocInv_step {s t : ContainerAlloc} (hinv : AllocInv s)
    (hstep : AllocStep s t) : AllocInv t := by
  obtain ⟨pos, cle, bnd, dis, lsub⟩ := hinv
  cases hstep with
  | alloc id len =>
    have hoff : s.data_cursor ≤ alignUp s.data_cursor s.fs_block_size :=
      alignUp_ge _ _ pos
    refine ⟨pos, ?_, ?_, ?_, ?_⟩
    · simp only [ContainerAlloc.allocate]
      exact le_max_right _ _
    · intro e he
      simp only [ContainerAlloc.allocate] at he ⊢
      rcases List.mem_cons.mp he with h1 | h1
      · subst h1; exact le_refl _
      · have := bnd e h1
        omega
    · simp only [ContainerAlloc.allocate]
      refine List.Pairwise.cons ?_ dis
      intro e he x hx
      have hbe := bnd e he
      simp only at hx
      omega
    · intro e he
      simp only [ContainerAlloc.allocate] at he ⊢
      exact List.mem_cons_of_mem _ (lsub e he)
  | publish e he =>
    refine ⟨pos, cle, bnd, dis, ?_⟩
    intro e2 he2
    rcases List.mem_cons.mp he2 with h1 | h1
    · subst h1; exact he
    · exact lsub e2 h1
  | unpublish e =>
    refine ⟨pos, cle, bnd, dis, ?_⟩
    intro e2 he2
    exact lsub e2 (List.erase_subset _ _ he2)

/-- The invariant holds in every reachable allocation state. -/
theorem allocInv_reachable (fsbs : Nat) (s : ContainerAlloc) (h : 0 < fsbs)
    (hr : ReachableAlloc fsbs s) : AllocInv s := by
  induction hr with
  | refl => exact allocInv_init fsbs h
  | tail _ hstep ih => exact allocInv_step ih hstep

/-- Claim C2: in every reachable container state, every live block lies
within the data file, and two distinct live blocks of the container
never overlap, regardless of how writers interleaved their allocations,
publications and deletions. -/
theorem live_blocks_within_file_and_disjoint (fsbs : Nat) (s : ContainerAlloc)
    (hpos : 0 < fsbs) (hr : ReachableAlloc fsbs s) :
    ∀ b ∈ s.live, b.offset + b.length ≤ s.file_len ∧
      ∀ b2 ∈ s.live, b ≠ b2 → NoOverlap b b2 := by
  have hinv := allocInv_reachable fsbs s hpos hr
  intro b hb
  constructor
  · have h1 := hinv.bounded b (hinv.live_sub b hb)
    have h2 := hinv.cursor_le
    omega
  · intro b2 hb2 hne
    have hmem1 := hinv.live_sub b hb
    have hmem2 := hinv.live_sub b2 hb2
    have hsym : Symmetric NoOverlap := by
      intro x y hxy t ht
      exact hxy t ⟨ht.2.2.1, ht.2.2.2, ht.1, ht.2.1⟩
    exact hinv.disjoint.forall hsym hmem1 hmem2 hne

/-- Concrete instance of the layout invariant: after two interleaved
writers allocate 100 and 50 bytes in one container (filesystem block
size 4096) and publish both blocks, the blocks at offsets 0 and 4096 do
not overlap. -/
theorem live_blocks_within_file_and_disjoint_witness :
    (0 < 4096 ∧
      ReachableAlloc 4096
        (ContainerAlloc.mk 4096 4146 4146
          [Extent.mk 2 4096 50, Extent.mk 1 0 100]
          [Extent.mk 2 4096 50, Extent.mk 1 0 100])) ∧
    NoOverlap (Extent.mk 2 4096 50) (Extent.mk 1 0 100) := by
  have hs1 : (ContainerAlloc.init 4096).allocate 1 100 =
      ContainerAlloc.mk 4096 100 100 [Extent.mk 1 0 100] [] := by decide
  have hs2 : (ContainerAlloc.mk 4096 100 100 [Extent.mk 1 0 100] []).allocate 2 50 =
      ContainerAlloc.mk 4096 4146 4146
        [Extent.mk 2 4096 50, Extent.mk 1 0 100] [] := by decide
  have hreach : ReachableAlloc 4096
      (ContainerAlloc.mk 4096 4146 4146
        [Extent.mk 2 4096 50, Extent.mk 1 0 100]
        [Extent.mk 2 4096 50, Extent.mk 1 0 100]) := by
    have r2 := Relation.ReflTransGen.tail (Relation.ReflTransGen.refl)
      (AllocStep.alloc (ContainerAlloc.init 4096) 1 100)
    rw [hs1] at r2
    have r3 := Relation.ReflTransGen.tail r2
      (AllocStep.alloc (ContainerAlloc.mk 4096 100 100 [Extent.mk 1 0 100] []) 2 50)
    rw [hs2] at r3
    have r4 : ReachableAlloc 4096
        (ContainerAlloc.mk 4096 4146 4146
          [Extent.mk 2 4096 50, Extent.mk 1 0 100] [Extent.mk 1 0 100]) :=
      Relation.ReflTransGen.tail r3
        (AllocStep.publish _ (Extent.mk 1 0 100) (by decide))
    exact Relation.ReflTransGen.tail r4
      (AllocStep.publish _ (Extent.mk 2 4096 50) (by decide))
  refine ⟨⟨by norm_num, hreach⟩, ?_⟩
  exact ((live_blocks_within_file_and_disjoint 4096 _ (by norm_num) hreach)
    (Extent.mk 2 4096 50) (by decide)).2 (Extent.mk 1 0 100) (by decide) (by decide)

/-- The durable image after running micro-events from a given file state:
records appended before a later sync become durable, the rest are lost
with `pending` at the crash. -/
theorem runEvs_durable_aux (evs : List DiskEv) :
    ∀ d p, (evs.foldl stepEv ⟨d, p⟩).durable =
      d ++ (if hasSync evs then p ++ committedRecords evs else committedRecords evs) := by
  induction evs with
  | nil => intro d p; simp [hasSync, committedRecords]
  | cons e rest ih =>
    intro d p
    cases e with
    | append r =>
      simp only [List.foldl_cons, stepEv]
      rw [ih d (p ++ [r])]
      simp only [hasSync, committedRecords]
      by_cases h : hasSync rest
      · simp [h, List.append_assoc]
      · simp [h]
    | sync =>
      simp only [List.foldl_cons, stepEv]
      rw [ih (d ++ p) []]
      simp only [hasSync, committedRecords]
      by_cases h : hasSync rest <;> simp [h, List.append_assoc]

/-- Replay distributes over concatenation. -/
theorem replayList_append (m : LiveMap) (a b : List BlockRecordPB) :
    replayList m (a ++ b) =
      match replayList m a with
      | none => none
      | some m2 => replayList m2 b := by
  induction a generalizing m with
  | nil => simp [replayList]
  | cons r rest ih =>
    simp only [List.cons_append, replayList]
    cases replayStep m r with
    | none => rfl
    | some m2 => exact ih m2

/-- Membership in a live map distributes over cons. -/
theorem containsId_cons (p : Nat × BlockRecordPB) (m : LiveMap) (x : Nat) :
    containsId (p :: m) x = ((p.1 == x) || containsId m x) := by
  simp [containsId, List.any_cons]

/-- Erasing an id removes it. -/
theorem containsId_erase_self (m : LiveMap) (id : Nat) :
    containsId (eraseId m id) id = false := by
  induction m with
  | nil => rfl
  | cons p rest ih =>
    by_cases h1 : p.1 = id
    · simpa [eraseId, List.filter_cons, h1] using ih
    · have hb : (p.1 != id) = true := by simp [h1]
      have hx : (p.1 == id) = false := by simp [h1]
      simp only [eraseId, List.filter_cons, hb, if_true]
      rw [containsId_cons, hx]
      simpa [eraseId] using ih

/-- Erasing one id leaves the others unchanged. -/
theorem containsId_erase (m : LiveMap) (id x : Nat) (h : x ≠ id) :
    containsId (eraseId m id) x = containsId m x := by
  induction m with
  | nil => rfl
  | cons p rest ih =>
    by_cases h1 : p.1 = id
    · have hx : (p.1 == x) = false := by
        simp only [beq_eq_false_iff_ne, ne_eq]
        intro hh
        exact h (hh ▸ h1 ▸ rfl)
      have hb : (p.1 != id) = false := by simp [h1]
      simp only [eraseId, List.filter_cons, hb]
      rw [containsId_cons, hx]
      simpa [eraseId] using ih
    · have hb : (p.1 != id) = true := by simp [h1]
      simp only [eraseId, List.filter_cons, hb, if_true]
      rw [containsId_cons, containsId_cons]
      simpa [eraseId] using congrArg (fun b => (p.1 == x) || b) ih

/-- The last operation on an id after appending one CREATE. -/
theorem lastOpOn_append_create (rs : List BlockRecordPB) (id2 off len ts id : Nat) :
    lastOpOn (rs ++ [BlockRecordPB.create id2 off len ts]) id =
      if id2 = id then some true else lastOpOn rs id := by
  simp [lastOpOn, List.foldl_append]

/-- The last operation on an id after appending one DELETE. -/
theorem lastOpOn_append_delete (rs : List BlockRecordPB) (id2 ts id : Nat) :
    lastOpOn (rs ++ [BlockRecordPB.delete id2 ts]) id =
      if id2 = id then some false else lastOpOn rs id := by
  simp [lastOpOn, List.foldl_append]

/-- Replay of a well-formed record sequence holds an id exactly when the
last record mentioning it is a CREATE (falling back to the starting map
for untouched ids). -/
theorem replay_contains_iff (rs : List BlockRecordPB) :
    ∀ (m0 m : LiveMap), replayList m0 rs = some m →
      ∀ id, containsId m id = (lastOpOn rs id).getD (containsId m0 id) := by
  induction rs using List.reverseRecOn with
  | nil =>
    intro m0 m h id
    simp only [replayList] at h
    cases h
    simp [lastOpOn]
  | append_singleton rs r ih =>
    intro m0 m h id
    rw [replayList_append] at h
    rcases h2 : replayList m0 rs with _ | m1
    · rw [h2] at h; exact absurd h (by simp)
    · rw [h2] at h
      simp only [replayList] at h
      rcases h3 : replayStep m1 r with _ | m2
      · rw [h3] at h; exact absurd h (by simp)
      · rw [h3] at h
        have hm : m2 = m := by
          rcases h4 : replayList m2 [] with _ | m5
          · simp [replayList] at h4
          · simp only [replayList] at h4
            cases h4
            simpa using h
        subst hm
        have ihh := ih m0 m1 h2
        cases r with
        | create id2 off len ts =>
          rw [lastOpOn_append_create]
          simp only [replayStep] at h3
          by_cases hdup : containsId m1 id2 = true
          · rw [if_pos hdup] at h3; exact absurd h3 (by simp)
          · rw [if_neg hdup] at h3
            have hm2 : (id2, BlockRecordPB.create id2 off len ts) :: m1 = m2 := by
              simpa using h3
            rw [← hm2]
            by_cases hid : id2 = id
            · subst hid
              rw [if_pos rfl, containsId_cons]
              simp
            · rw [if_neg hid, containsId_cons]
              have hne : (id2 == id) = false := by simp [hid]
              rw [hne]
              simp only [Bool.false_or]
              exact ihh id
        | delete id2 ts =>
          rw [lastOpOn_append_delete]
          simp only [replayStep] at h3
          by_cases hpres : containsId m1 id2 = true
          · rw [if_pos hpres] at h3
            have hm2 : eraseId m1 id2 = m2 := by simpa using h3
            rw [← hm2]
            by_cases hid : id2 = id
            · subst hid
              rw [if_pos rfl, containsId_erase_self]
              simp
            · rw [if_neg hid, containsId_erase m1 id2 id (fun he => hid he.symm)]
              exact ihh id
          · rw [if_neg hpres] at h3; exact absurd h3 (by simp)

/-- Claim C1: after a crash at any point of an execution, the durable
metadata image holds exactly the records of the committed transactions
(those whose append was followed by a successful sync), and recovery
replay publishes a block id exactly when its latest committed record is
a CREATE, i.e. its CREATE committed and no DELETE of it committed; a
block whose sync never completed is not made available. -/
theorem recovery_equals_committed (evs : List DiskEv) (m : LiveMap)
    (hwf : replayList [] (committedRecords evs) = some m) :
    (runEvs evs).durable = committedRecords evs ∧
    ∀ id, containsId m id = liveByLastOp (committedRecords evs) id := by
  constructor
  · have h := runEvs_durable_aux evs [] []
    rw [runEvs, h]
    by_cases hs : hasSync evs <;> simp [hs]
  · intro id
    have h := replay_contains_iff (committedRecords evs) [] m hwf id
    rw [h]
    cases hlo : lastOpOn (committedRecords evs) id with
    | none => simp [liveByLastOp, hlo, containsId]
    | some b => cases b <;> simp [liveByLastOp, hlo]

/-- Concrete instance of crash recovery: with a synced CREATE of block 1
and an unsynced CREATE of block 2, recovery yields exactly block 1. -/
theorem recovery_equals_committed_witness :
    replayList [] (committedRecords
      [DiskEv.append (BlockRecordPB.create 1 0 100 7), DiskEv.sync,
        DiskEv.append (BlockRecordPB.create 2 0 50 9)]) =
      some [(1, BlockRecordPB.create 1 0 100 7)] ∧
    containsId [(1, BlockRecordPB.create 1 0 100 7)] 1 = true ∧
    containsId [(1, BlockRecordPB.create 1 0 100 7)] 2 = false := by
  refine ⟨by decide, ?_, ?_⟩
  · have h := (recovery_equals_committed
      [DiskEv.append (BlockRecordPB.create 1 0 100 7), DiskEv.sync,
        DiskEv.append (BlockRecordPB.create 2 0 50 9)]
      [(1, BlockRecordPB.create 1 0 100 7)] (by decide)).2 1
    rw [h]; decide
  · have h := (recovery_equals_committed
      [DiskEv.append (BlockRecordPB.create 1 0 100 7), DiskEv.sync,
        DiskEv.append (BlockRecordPB.create 2 0 50 9)]
      [(1, BlockRecordPB.create 1 0 100 7)] (by decide)).2 2
    rw [h]; decide

/-- The temporary path differs from the metadata path. -/
theorem metadataPath_ne_tmp (c : ContainerRef) :
    c.metadataPath ≠ c.tmpMetadataPath := by
  intro h
  have hlen := congrArg String.length h
  rw [ContainerRef.tmpMetadataPath, String.length_append] at hlen
  have h4 : kTmpFileSuffix.length = 4 := rfl
  omega

/-- Effect of the metadata rewrite on the filesystem: the metadata file
carries exactly the given records, durably (the temporary file was
fsynced before the rename); the temporary file is gone; no directory
was fsynced; dirty_dirs is untouched by the rewrite itself. -/
theorem rewriteMetadataFile_spec (fs : FsState) (c : ContainerRef)
    (records : List BlockRecordPB) :
    (RewriteMetadataFile fs c records).readFile c.metadataPath = some records ∧
    (RewriteMetadataFile fs c records).synced_files.contains c.metadataPath = true ∧
    (RewriteMetadataFile fs c records).readFile c.tmpMetadataPath = none ∧
    (RewriteMetadataFile fs c records).synced_dirs = fs.synced_dirs ∧
    (RewriteMetadataFile fs c records).dirty_dirs = fs.dirty_dirs := by
  have hne : c.metadataPath ≠ c.tmpMetadataPath := metadataPath_ne_tmp c
  have hb1 : (c.tmpMetadataPath == c.tmpMetadataPath) = true := by simp
  have hread : ((fs.writeFile c.tmpMetadataPath records).fsyncFile
      c.tmpMetadataPath).readFile c.tmpMetadataPath = some records := by
    simp [FsState.readFile, FsState.writeFile, FsState.fsyncFile,
      List.find?_cons_of_pos, hb1]
  refine ⟨?_, ?_, ?_, ?_, ?_⟩
  · simp only [RewriteMetadataFile, FsState.renameFile, hread]
    simp [FsState.readFile, List.find?_cons_of_pos]
  · simp only [RewriteMetadataFile, FsState.renameFile, hread]
    simp [FsState.fsyncFile, FsState.writeFile, List.contains_cons]
  · simp only [RewriteMetadataFile, FsState.renameFile, hread]
    simp only [FsState.readFile]
    have hfind : (((c.metadataPath, records) ::
        ((fs.writeFile c.tmpMetadataPath records).fsyncFile
          c.tmpMetadataPath).files.filter
          (fun p => p.1 != c.tmpMetadataPath && p.1 != c.metadataPath)).find?
        (fun p => p.1 == c.tmpMetadataPath)) = none := by
      rw [List.find?_eq_none]
      intro p hp
      rcases List.mem_cons.mp hp with h1 | h1
      · subst h1
        simp only [beq_iff_eq]
        exact hne
      · have := (List.mem_filter.mp h1).2
        simp only [Bool.and_eq_true, bne_iff_ne, ne_eq] at this
        simp only [beq_iff_eq]
        exact this.1
    rw [hfind]
    rfl
  · simp only [RewriteMetadataFile, FsState.renameFile, hread]
    simp [FsState.fsyncFile, FsState.writeFile]
  · simp only [RewriteMetadataFile, FsState.renameFile, hread]
    simp [FsState.fsyncFile, FsState.writeFile]

/-- Claim C7: a container whose live fraction of metadata records is
below the threshold has its metadata rewritten at startup to exactly the
projection of its live records, via a temporary file that is fsynced
then atomically renamed over the original; the compaction does not fsync
the parent directory but adds it to dirty_dirs. -/
theorem metadata_compaction_spec (fs : FsState) (c : ContainerRef)
    (md : List BlockRecordPB) (num den : Nat) (live : LiveMap)
    (hrep : replayList [] md = some live)
    (hlow : live.length * den < num * md.length) :
    (RepairCompactContainer fs c md num den).readFile c.metadataPath =
      some (live.map Prod.snd) ∧
    (RepairCompactContainer fs c md num den).synced_files.contains
      c.metadataPath = true ∧
    (RepairCompactContainer fs c md num den).readFile c.tmpMetadataPath = none ∧
    (RepairCompactContainer fs c md num den).synced_dirs = fs.synced_dirs ∧
    (RepairCompactContainer fs c md num den).dirty_dirs = c.dir :: fs.dirty_dirs := by
  have hred : RepairCompactContainer fs c md num den =
      { RewriteMetadataFile fs c (live.map Prod.snd) with
        dirty_dirs := c.dir ::
          (RewriteMetadataFile fs c (live.map Prod.snd)).dirty_dirs } := by
    simp [RepairCompactContainer, hrep, hlow]
  obtain ⟨h1, h2, h3, h4, h5⟩ := rewriteMetadataFile_spec fs c (live.map Prod.snd)
  rw [hred]
  exact ⟨h1, h2, h3, h4, by rw [h5]⟩

/-- Concrete instance of metadata compaction: a metadata file with one
live record out of three is compacted at threshold one half; the
rewritten file holds exactly the live CREATE and the parent directory
is only marked dirty. -/
theorem metadata_compaction_spec_witness :
    (replayList [] [BlockRecordPB.create 1 0 8 0, BlockRecordPB.create 2 8 8 0,
        BlockRecordPB.delete 2 1] =
      some [(1, BlockRecordPB.create 1 0 8 0)] ∧ 1 * 2 < 1 * 3) ∧
    (RepairCompactContainer (FsState.mk [] [] [] []) (ContainerRef.mk "d0" "cont")
      [BlockRecordPB.create 1 0 8 0, BlockRecordPB.create 2 8 8 0,
        BlockRecordPB.delete 2 1] 1 2).dirty_dirs = ["d0"] := by
  refine ⟨⟨by decide, by decide⟩, ?_⟩
  exact (metadata_compaction_spec (FsState.mk [] [] [] [])
    (ContainerRef.mk "d0" "cont")
    [BlockRecordPB.create 1 0 8 0, BlockRecordPB.create 2 8 8 0,
      BlockRecordPB.delete 2 1] 1 2 [(1, BlockRecordPB.create 1 0 8 0)]
    (by decide) (by decide)).2.2.2.2

/-- A varint encoding is never empty. -/
theorem encodeUvarint_ne_nil (n : Nat) : encodeUvarint n ≠ [] := by
  rw [encodeUvarint]
  split <;> simp

/-- Varint decode inverts varint encode, leaving the tail untouched. -/
theorem decodeUvarint_encode (n : Nat) :
    ∀ t, decodeUvarint (encodeUvarint n ++ t) = some (n, t) := by
  induction n using Nat.strong_induction_on with
  | _ n ih =>
    intro t
    rw [encodeUvarint]
    by_cases h : n < 128
    · rw [dif_pos h]
      simp [decodeUvarint, h]
    · rw [dif_neg h]
      rw [List.cons_append]
      rw [decodeUvarint]
      have hb : ¬ (n % 128 + 128 < 128) := by omega
      rw [if_neg hb]
      rw [ih (n / 128) (Nat.div_lt_self (by omega) (by omega)) t]
      simp only [Option.some.injEq, Prod.mk.injEq, and_true]
      omega

/-- Every byte of a strict front part of a varint encoding has the
continuation bit set. -/
theorem encodeUvarint_high_bytes (n : Nat) :
    ∀ k, k < (encodeUvarint n).length → ∀ b ∈ (encodeUvarint n).take k, 128 ≤ b := by
  induction n using Nat.strong_induction_on with
  | _ n ih =>
    intro k hk b hb
    rw [encodeUvarint] at hk hb
    by_cases h : n < 128
    · rw [dif_pos h] at hk hb
      simp only [List.length_cons, List.length_nil] at hk
      have : k = 0 := by omega
      subst this
      simp at hb
    · rw [dif_neg h] at hk hb
      simp only [List.length_cons] at hk
      cases k with
      | zero => simp at hb
      | succ j =>
        rw [List.take_succ_cons] at hb
        rcases List.mem_cons.mp hb with h1 | h1
        · subst h1; omega
        · exact ih (n / 128) (Nat.div_lt_self (by omega) (by omega)) j
            (by omega) b h1

/-- Decoding fails on a byte list whose every byte has the continuation
bit set: the final group never arrives. -/
theorem decodeUvarint_all_high (l : List Nat) (h : ∀ b ∈ l, 128 ≤ b) :
    decodeUvarint l = none := by
  induction l with
  | nil => rfl
  | cons b bs ih =>
    simp only [decodeUvarint]
    have hb : ¬ b < 128 := by
      have := h b (by simp)
      omega
    rw [if_neg hb, ih (fun x hx => h x (by simp [hx]))]

/-- Fixed-width encoding emits exactly k bytes. -/
theorem encBytes_length (k : Nat) : ∀ n, (encBytes k n).length = k := by
  induction k with
  | zero => intro n; rfl
  | succ k ih => intro n; simp [encBytes, ih]

/-- Byte decode inverts fixed-width encode modulo the width. -/
theorem decBytes_encBytes (k : Nat) : ∀ n, decBytes (encBytes k n) = n % 256 ^ k := by
  induction k with
  | zero => intro n; simp [encBytes, decBytes, Nat.mod_one]
  | succ k ih =>
    intro n
    simp only [encBytes, decBytes, ih]
    rw [pow_succ, Nat.mul_comm (256 ^ k) 256, Nat.mod_mul]

/-- CRC-32C values fit in 32 bits. -/
theorem crc32c_lt (bytes : List Nat) : crc32c bytes < 2 ^ 32 :=
  Nat.mod_lt _ (by norm_num)

/-- Parsing a frame body inverts its construction for any record whose
fields fit in 64 bits. -/
theorem parseRecord_encode (r : BlockRecordPB) (hr : ValidRecord r) :
    parseRecord (kindOf r :: payloadOf r) = some r := by
  have h64 : (256 : Nat) ^ 8 = 2 ^ 64 := by norm_num
  cases r with
  | create id off len ts =>
    obtain ⟨h1, h2, h3, h4⟩ := hr
    simp only [kindOf, payloadOf, parseRecord]
    rw [List.append_assoc, List.append_assoc]
    have hlen : (encBytes 8 id ++ (encBytes 8 off ++ (encBytes 8 len ++
        encBytes 8 ts))).length = 32 := by
      simp [encBytes_length]
    rw [if_pos hlen]
    have hA : (encBytes 8 id ++ (encBytes 8 off ++ (encBytes 8 len ++
        encBytes 8 ts))).take 8 = encBytes 8 id :=
      List.take_left' (encBytes_length 8 id)
    have hB : (encBytes 8 id ++ (encBytes 8 off ++ (encBytes 8 len ++
        encBytes 8 ts))).drop 8 = encBytes 8 off ++ (encBytes 8 len ++
        encBytes 8 ts) :=
      List.drop_left' (encBytes_length 8 id)
    have hC : (encBytes 8 id ++ (encBytes 8 off ++ (encBytes 8 len ++
        encBytes 8 ts))).drop 16 = encBytes 8 len ++ encBytes 8 ts := by
      rw [show (16 : Nat) = 8 + 8 from rfl, ← List.drop_drop, hB]
      exact List.drop_left' (encBytes_length 8 off)
    have hD : (encBytes 8 id ++ (encBytes 8 off ++ (encBytes 8 len ++
        encBytes 8 ts))).drop 24 = encBytes 8 ts := by
      rw [show (24 : Nat) = 16 + 8 from rfl, ← List.drop_drop, hC]
      exact List.drop_left' (encBytes_length 8 len)
    rw [hA, hB, hC, hD]
    rw [List.take_left' (encBytes_length 8 off), List.take_left' (encBytes_length 8 len)]
    simp only [decBytes_encBytes, h64, Nat.mod_eq_of_lt h1, Nat.mod_eq_of_lt h2,
      Nat.mod_eq_of_lt h3, Nat.mod_eq_of_lt h4]
  | delete id ts =>
    obtain ⟨h1, h2⟩ := hr
    simp only [kindOf, payloadOf, parseRecord]
    have hlen : (encBytes 8 id ++ encBytes 8 ts).length = 16 := by
      simp [encBytes_length]
    rw [if_pos hlen]
    rw [List.take_left' (encBytes_length 8 id), List.drop_left' (encBytes_length 8 id)]
    simp only [decBytes_encBytes, h64, Nat.mod_eq_of_lt h1, Nat.mod_eq_of_lt h2]

/-- A frame encoding is never empty. -/
theorem encodeRecord_ne_nil (r : BlockRecordPB) : encodeRecord r ≠ [] := by
  simp only [encodeRecord]
  intro h
  have hl := congrArg List.length h
  simp only [List.length_append, List.length_nil] at hl
  have hU : 0 < (encodeUvarint (kindOf r :: payloadOf r).length).length :=
    List.length_pos.mpr (encodeUvarint_ne_nil _)
  omega

/-- Decoding one intact frame consumes it and yields the record. -/
theorem decodeFrames_record_cons (r : BlockRecordPB) (hr : ValidRecord r)
    (suffix : List Nat) :
    decodeFrames (encodeRecord r ++ suffix) =
      (r :: (decodeFrames suffix).1, (decodeFrames suffix).2) := by
  have hemp : ((encodeRecord r ++ suffix).isEmpty = true) = False := by
    simp [List.isEmpty_iff, encodeRecord_ne_nil r]
  have hdec : decodeUvarint (encodeRecord r ++ suffix) =
      some ((kindOf r :: payloadOf r).length,
        (kindOf r :: payloadOf r) ++
          (encBytes 4 (crc32c (kindOf r :: payloadOf r)) ++ suffix)) := by
    rw [encodeRecord, List.append_assoc, List.append_assoc]
    exact decodeUvarint_encode _ _
  rw [decodeFrames]
  rw [if_neg (by simp [hemp])]
  split
  · rename_i heq
    rw [hdec] at heq
    exact absurd heq (by simp)
  · rename_i len rest heq
    rw [hdec] at heq
    have hlen : (kindOf r :: payloadOf r).length = len := by
      have := congrArg (fun o => (Option.map Prod.fst o).getD 0) heq
      simpa using this
    have hrest : (kindOf r :: payloadOf r) ++
        (encBytes 4 (crc32c (kindOf r :: payloadOf r)) ++ suffix) = rest := by
      have := congrArg (fun o => (Option.map Prod.snd o).getD []) heq
      simpa using this
    subst hlen
    rw [← hrest]
    have hrlen : ((kindOf r :: payloadOf r) ++
        (encBytes 4 (crc32c (kindOf r :: payloadOf r)) ++ suffix)).length =
        (kindOf r :: payloadOf r).length + (4 + suffix.length) := by
      simp [List.length_append, encBytes_length]
      omega
    rw [if_neg (by omega)]
    have htake : ((kindOf r :: payloadOf r) ++
        (encBytes 4 (crc32c (kindOf r :: payloadOf r)) ++ suffix)).take
        (kindOf r :: payloadOf r).length = kindOf r :: payloadOf r :=
      List.take_left _ _
    have hdrop : ((kindOf r :: payloadOf r) ++
        (encBytes 4 (crc32c (kindOf r :: payloadOf r)) ++ suffix)).drop
        (kindOf r :: payloadOf r).length =
        encBytes 4 (crc32c (kindOf r :: payloadOf r)) ++ suffix :=
      List.drop_left _ _
    rw [htake, hdrop]
    rw [List.take_left' (encBytes_length 4 _)]
    have hcrc : decBytes (encBytes 4 (crc32c (kindOf r :: payloadOf r))) =
        crc32c (kindOf r :: payloadOf r) := by
      rw [decBytes_encBytes]
      have h232 : (256 : Nat) ^ 4 = 2 ^ 32 := by norm_num
      rw [h232]
      exact Nat.mod_eq_of_lt (crc32c_lt _)
    rw [if_pos hcrc]
    rw [parseRecord_encode r hr]
    have hdrop2 : ((kindOf r :: payloadOf r) ++
        (encBytes 4 (crc32c (kindOf r :: payloadOf r)) ++ suffix)).drop
        ((kindOf r :: payloadOf r).length + 4) = suffix := by
      rw [← List.drop_drop, List.drop_left]
      exact List.drop_left' (encBytes_length 4 _)
    rw [hdrop2]

/-- Decoding a clean concatenation of frames prepends the records. -/
theorem decodeFrames_encodeRecords (rs : List BlockRecordPB)
    (h : ∀ r ∈ rs, ValidRecord r) (suffix : List Nat) :
    decodeFrames (encodeRecords rs ++ suffix) =
      (rs ++ (decodeFrames suffix).1, (decodeFrames suffix).2) := by
  induction rs with
  | nil => simp [encodeRecords]
  | cons r rest ih =>
    rw [encodeRecords, List.append_assoc,
      decodeFrames_record_cons r (h r (by simp)),
      ih (fun x hx => h x (by simp [hx]))]
    rfl

/-- Decoding a strict nonempty front part of a single frame stops with a
truncation, consuming nothing. -/
theorem decodeFrames_truncated_frame (r : BlockRecordPB) (k : Nat)
    (hk0 : 0 < k) (hk : k < (encodeRecord r).length) :
    decodeFrames ((encodeRecord r).take k) =
      ([], .truncated, (encodeRecord r).take k) := by
  have hk2 := hk
  rw [encodeRecord] at hk2
  rw [List.length_append] at hk2
  have hUlen : 0 < (encodeUvarint (kindOf r :: payloadOf r).length).length :=
    List.length_pos.mpr (encodeUvarint_ne_nil _)
  have hsplit : (encodeRecord r).take k =
      (encodeUvarint (kindOf r :: payloadOf r).length).take k ++
        ((kindOf r :: payloadOf r) ++
          encBytes 4 (crc32c (kindOf r :: payloadOf r))).take
          (k - (encodeUvarint (kindOf r :: payloadOf r).length).length) := by
    rw [encodeRecord, List.take_append_eq_append_take]
  have hne : (encodeRecord r).take k ≠ [] := by
    intro h
    have := congrArg List.length h
    rw [List.length_take] at this
    simp only [List.length_nil] at this
    omega
  rw [decodeFrames]
  rw [if_neg (by simp [List.isEmpty_iff, hne])]
  by_cases hcase : k < (encodeUvarint (kindOf r :: payloadOf r).length).length
  · have hdec : decodeUvarint ((encodeRecord r).take k) = none := by
      rw [hsplit]
      have hz : k - (encodeUvarint (kindOf r :: payloadOf r).length).length = 0 := by
        omega
      rw [hz, List.take_zero, List.append_nil]
      exact decodeUvarint_all_high _ (encodeUvarint_high_bytes _ k hcase)
    split
    · rfl
    · rename_i len rest heq
      rw [hdec] at heq
      exact absurd heq (by simp)
  · have hU : (encodeUvarint (kindOf r :: payloadOf r).length).take k =
        encodeUvarint (kindOf r :: payloadOf r).length :=
      List.take_of_length_le (by omega)
    have hdec : decodeUvarint ((encodeRecord r).take k) =
        some ((kindOf r :: payloadOf r).length,
          ((kindOf r :: payloadOf r) ++
            encBytes 4 (crc32c (kindOf r :: payloadOf r))).take
            (k - (encodeUvarint (kindOf r :: payloadOf r).length).length)) := by
      rw [hsplit, hU]
      exact decodeUvarint_encode _ _
    split
    · rename_i heq
      rw [hdec] at heq
    · rename_i len rest heq
      rw [hdec] at heq
      have hlen : (kindOf r :: payloadOf r).length = len := by
        have := congrArg (fun o => (Option.map Prod.fst o).getD 0) heq
        simpa using this
      have hrest : ((kindOf r :: payloadOf r) ++
          encBytes 4 (crc32c (kindOf r :: payloadOf r))).take
          (k - (encodeUvarint (kindOf r :: payloadOf r).length).length) = rest := by
        have := congrArg (fun o => (Option.map Prod.snd o).getD []) heq
        simpa using this
      have hshort : rest.length < len + 4 := by
        rw [← hrest, List.length_take, ← hlen]
        have hBC : ((kindOf r :: payloadOf r) ++
            encBytes 4 (crc32c (kindOf r :: payloadOf r))).length =
            (kindOf r :: payloadOf r).length + 4 := by
          rw [List.length_append, encBytes_length]
        rw [hBC]
        omega
      rw [if_pos hshort]

/-- A corrupt frame is never empty. -/
theorem corruptFrame_ne_nil (r : BlockRecordPB) : corruptFrame r ≠ [] := by
  simp only [corruptFrame]
  intro h
  have hl := congrArg List.length h
  simp only [List.length_append, List.length_nil] at hl
  have hU : 0 < (encodeUvarint (kindOf r :: payloadOf r).length).length :=
    List.length_pos.mpr (encodeUvarint_ne_nil _)
  omega

/-- Decoding a frame whose stored checksum mismatches its body stops with
corruption, consuming nothing, whatever follows. -/
theorem decodeFrames_corrupt_frame (r : BlockRecordPB) (tail : List Nat) :
    decodeFrames (corruptFrame r ++ tail) =
      ([], .corrupt, corruptFrame r ++ tail) := by
  have hne : corruptFrame r ++ tail ≠ [] := by
    intro h
    exact corruptFrame_ne_nil r (List.append_eq_nil.mp h).1
  have hdec : decodeUvarint (corruptFrame r ++ tail) =
      some ((kindOf r :: payloadOf r).length,
        (kindOf r :: payloadOf r) ++
          (encBytes 4 ((crc32c (kindOf r :: payloadOf r) + 1) % 2 ^ 32) ++ tail)) := by
    rw [corruptFrame, List.append_assoc, List.append_assoc]
    exact decodeUvarint_encode _ _
  rw [decodeFrames]
  rw [if_neg (by simp [List.isEmpty_iff, hne])]
  split
  · rename_i heq
    rw [hdec] at heq
    exact absurd heq (by simp)
  · rename_i len rest heq
    rw [hdec] at heq
    have hlen : (kindOf r :: payloadOf r).length = len := by
      have := congrArg (fun o => (Option.map Prod.fst o).getD 0) heq
      simpa using this
    have hrest : (kindOf r :: payloadOf r) ++
        (encBytes 4 ((crc32c (kindOf r :: payloadOf r) + 1) % 2 ^ 32) ++ tail) =
        rest := by
      have := congrArg (fun o => (Option.map Prod.snd o).getD []) heq
      simpa using this
    subst hlen
    rw [← hrest]
    have hrlen : ((kindOf r :: payloadOf r) ++
        (encBytes 4 ((crc32c (kindOf r :: payloadOf r) + 1) % 2 ^ 32) ++ tail)).length =
        (kindOf r :: payloadOf r).length + (4 + tail.length) := by
      simp [List.length_append, encBytes_length]
      omega
    rw [if_neg (by omega)]
    have htake : ((kindOf r :: payloadOf r) ++
        (encBytes 4 ((crc32c (kindOf r :: payloadOf r) + 1) % 2 ^ 32) ++ tail)).take
        (kindOf r :: payloadOf r).length = kindOf r :: payloadOf r :=
      List.take_left _ _
    have hdrop : ((kindOf r :: payloadOf r) ++
        (encBytes 4 ((crc32c (kindOf r :: payloadOf r) + 1) % 2 ^ 32) ++ tail)).drop
        (kindOf r :: payloadOf r).length =
        encBytes 4 ((crc32c (kindOf r :: payloadOf r) + 1) % 2 ^ 32) ++ tail :=
      List.drop_left _ _
    rw [htake, hdrop]
    rw [List.take_left' (encBytes_length 4 _)]
    have hbad : decBytes (encBytes 4 ((crc32c (kindOf r :: payloadOf r) + 1) % 2 ^ 32)) ≠
        crc32c (kindOf r :: payloadOf r) := by
      rw [decBytes_encBytes]
      have h232 : (256 : Nat) ^ 4 = 2 ^ 32 := by norm_num
      rw [h232]
      have := crc32c_lt (kindOf r :: payloadOf r)
      omega
    rw [if_neg hbad]

/-- Claim C8: decoding a metadata file made of intact frames succeeds
with exactly those records; a file whose final frame is cut short (any
strict nonempty front part of one more frame) decodes to exactly the
intact records with a truncation outcome whose unconsumed tail is the
torn fragment, so truncating the file at the last valid frame boundary
loses no live block; and a frame with a wrong stored checksum is fatal
corruption for the container, not a truncation, wherever it sits. -/
theorem truncated_tail_only_recoverable :
    (∀ rs, (∀ r ∈ rs, ValidRecord r) →
      decodeFrames (encodeRecords rs) = (rs, .ok, [])) ∧
    (∀ rs r k, (∀ x ∈ rs, ValidRecord x) → ValidRecord r → 0 < k →
      k < (encodeRecord r).length →
      decodeFrames (encodeRecords rs ++ (encodeRecord r).take k) =
        (rs, .truncated, (encodeRecord r).take k)) ∧
    (∀ rs r tail, (∀ x ∈ rs, ValidRecord x) →
      decodeFrames (encodeRecords rs ++ (corruptFrame r ++ tail)) =
        (rs, .corrupt, corruptFrame r ++ tail)) := by
  refine ⟨?_, ?_, ?_⟩
  · intro rs h
    have h0 : decodeFrames [] = ([], DecodeOutcome.ok, []) := by
      rw [decodeFrames]
      simp
    have h2 := decodeFrames_encodeRecords rs h []
    rw [List.append_nil] at h2
    rw [h2, h0]
    simp
  · intro rs r k hrs hr hk0 hk
    rw [decodeFrames_encodeRecords rs hrs ((encodeRecord r).take k),
      decodeFrames_truncated_frame r k hk0 hk]
    simp
  · intro rs r tail hrs
    rw [decodeFrames_encodeRecords rs hrs (corruptFrame r ++ tail),
      decodeFrames_corrupt_frame r tail]
    simp

/-- Concrete instance of the codec specification: one intact CREATE
frame followed by the first byte of a DELETE frame decodes to the CREATE
alone with a truncation at the frame boundary. -/
theorem truncated_tail_only_recoverable_witness :
    (ValidRecord (BlockRecordPB.create 1 0 5 2) ∧
      ValidRecord (BlockRecordPB.delete 3 4) ∧ 0 < 1 ∧
      1 < (encodeRecord (BlockRecordPB.delete 3 4)).length) ∧
    decodeFrames (encodeRecords [BlockRecordPB.create 1 0 5 2] ++
        (encodeRecord (BlockRecordPB.delete 3 4)).take 1) =
      ([BlockRecordPB.create 1 0 5 2], .truncated,
        (encodeRecord (BlockRecordPB.delete 3 4)).take 1) := by
  have h17 : (kindOf (BlockRecordPB.delete 3 4) ::
      payloadOf (BlockRecordPB.delete 3 4)).length = 17 := by decide
  have hU : encodeUvarint 17 = [17] := by
    rw [encodeUvarint]
    rw [dif_pos (by norm_num : (17 : Nat) < 128)]
  have hlen : (encodeRecord (BlockRecordPB.delete 3 4)).length = 22 := by
    rw [encodeRecord, h17, hU]
    have hp : (payloadOf (BlockRecordPB.delete 3 4)).length = 16 := by decide
    simp [List.length_append, encBytes_length, hp]
  refine ⟨⟨?_, ?_, ?_, ?_⟩, ?_⟩
  · exact ⟨by norm_num, by norm_num, by norm_num, by norm_num⟩
  · exact ⟨by norm_num, by norm_num⟩
  · norm_num
  · omega
  · exact truncated_tail_only_recoverable.2.1 [BlockRecordPB.create 1 0 5 2]
      (BlockRecordPB.delete 3 4) 1
      (by intro x hx; rcases List.mem_singleton.mp hx with h; subst h
          exact ⟨by norm_num, by norm_num, by norm_num, by norm_num⟩)
      ⟨by norm_num, by norm_num⟩ (by norm_num) (by omega)

end KuduFs
